import Mathlib

/-!
Verification of the `slicepat` wildcard pattern-matching engine and the
`bubz2` ignore-list filter built on top of it.

The definitions below are a shallow embedding of the Rust sources:
 - `slicepat/src/lib.rs`: `Matcher`, `ExactMatch`, `CaseInsensitive`,
   `PathMatch`, `matches_impl`, `suffix_matches_impl`;
 - `slicepat/src/pattern.rs`: `PatternFlags`, `Pattern`, `Pattern::parse`,
   `Pattern::first_match`;
 - `slicepat/src/u8_buf.rs`: `U8Pieces::push`, `FromIterator`,
   `U8PiecesIter::next`;
 - `src/main.rs`: `Directive`, `PatternMap::has_match`.

Slices `&[T]` become `List α`; bytes `u8` become `Nat` (values below 256 in
practice; the embeddings never rely on the bound except where stated);
`usize` lengths become `Nat` with explicit truncation `% 2^64` where the
source serializes them into fixed-width prefixes.
-/

namespace Slicepat

/-- The `Matcher` trait of `slicepat/src/lib.rs`: one stateless operation
deciding equivalence of two element sequences. -/
structure MatcherL (α : Type) where
  isEqual : List α → List α → Bool

/-- `ExactMatch` (`lib.rs`): elementwise slice equality `a == b`
(also false on length mismatch, as for Rust slice `PartialEq`). -/
def ExactMatch {α : Type} [DecidableEq α] : MatcherL α :=
  ⟨fun a b => decide (a = b)⟩

/-- Rust `u8::to_ascii_lowercase`: maps `b'A'..=b'Z'` (65..=90) to the
corresponding lowercase letter, leaving every other byte unchanged. -/
def toAsciiLowercase (b : Nat) : Nat :=
  if 65 ≤ b ∧ b ≤ 90 then b + 32 else b

/-- Rust `u8::eq_ignore_ascii_case`: equality after ASCII lowercasing. -/
def byteEqIgnoreAsciiCase (a b : Nat) : Bool :=
  toAsciiLowercase a == toAsciiLowercase b

/-- Rust `<[u8]>::eq_ignore_ascii_case`: equal lengths and pointwise
ASCII-case-insensitive byte equality. -/
def sliceEqIgnoreAsciiCase (a b : List Nat) : Bool :=
  a.length == b.length && (a.zip b).all fun p => byteEqIgnoreAsciiCase p.1 p.2

/-- `CaseInsensitive` (`lib.rs`): `a.eq_ignore_ascii_case(b)` on byte slices. -/
def CaseInsensitive : MatcherL Nat :=
  ⟨sliceEqIgnoreAsciiCase⟩

/-- `PathMatch` (`lib.rs`): if lengths differ, false; otherwise every byte
pair must be ASCII-case-equal or be the pair `/`,`\` (47, 92) in either
order.  The source short-circuits per byte; `List.all` is its value-level
equivalent. -/
def PathMatch : MatcherL Nat :=
  ⟨fun a b =>
    if a.length ≠ b.length then false
    else (a.zip b).all fun p =>
      byteEqIgnoreAsciiCase p.1 p.2 || (p.1 == 47 && p.2 == 92) || (p.1 == 92 && p.2 == 47)⟩

/-- Rust `<[T]>::split_at_checked(n)`: `some (prefix, suffix)` when
`n ≤ length`, `none` otherwise. -/
def splitAtChecked {α : Type} (n : Nat) (l : List α) : Option (List α × List α) :=
  if n ≤ l.length then some (l.take n, l.drop n) else none

/-- The length-`n` window of `h` starting at offset `i`
(Rust `haystack.windows(n)` element number `i`). -/
def window {α : Type} (h : List α) (i n : Nat) : List α :=
  (h.drop i).take n

/-- Helper for `windowPos`: scan `count` windows of `h` of length
`piece.length` starting at offset `i`, returning the first offset whose
window the matcher accepts. -/
def scanWindows {α : Type} (m : MatcherL α) (piece h : List α) : Nat → Nat → Option Nat
  | 0, _ => none
  | count + 1, i =>
    if m.isEqual piece (window h i piece.length) then some i
    else scanWindows m piece h count (i + 1)

/-- Rust `haystack.windows(piece_len).position(|w| matcher.is_equal(piece, w))`:
when `piece.length ≤ h.length` there are `h.length - piece.length + 1`
windows, scanned left to right; otherwise there are no windows at all. -/
def windowPos {α : Type} (m : MatcherL α) (piece h : List α) : Option Nat :=
  if piece.length ≤ h.length then
    scanWindows m piece h (h.length - piece.length + 1) 0
  else none

/-- `suffix_matches_impl` (`lib.rs`): for each piece in order, if the piece
is non-empty, find the leftmost matching window (`windowPos`) and drop the
haystack past it (`haystack.get(offset + piece_len..)`, which checks the
bound); fail if no window matches.  An exhausted piece list yields the
current haystack. -/
def suffix_matches_impl {α : Type} (m : MatcherL α) : List (List α) → List α → Option (List α)
  | [], h => some h
  | piece :: ps, h =>
    if 0 < piece.length then
      match windowPos m piece h with
      | none => none
      | some off =>
        if off + piece.length ≤ h.length then
          suffix_matches_impl m ps (h.drop (off + piece.length))
        else none
    else suffix_matches_impl m ps h

/-- `matches_impl` (`lib.rs`): with no pieces, succeed (with the haystack)
iff the haystack is empty; otherwise split the haystack at the first
piece's length (failing when too short), require the prefix window to be
equivalent to the first piece, and continue with `suffix_matches_impl` on
the remaining pieces and haystack. -/
def matches_impl {α : Type} (m : MatcherL α) : List (List α) → List α → Option (List α)
  | [], h => if h.isEmpty then some h else none
  | first :: ps, h =>
    match splitAtChecked first.length h with
    | none => none
    | some (w, rest) =>
      if m.isEqual first w then suffix_matches_impl m ps rest else none

/-- `PatternFlags` (`pattern.rs`): a `u8` bit set.  Bit 0 is
`FLAG_START_UNANCHORED`, bit 1 is `FLAG_END_ANCHORED`. -/
structure PatternFlags where
  val : Nat
deriving DecidableEq, Repr

/-- `PatternFlags::empty`. -/
def PatternFlags.empty : PatternFlags := ⟨0⟩

/-- `PatternFlags::is_start_unanchored`: `(self.0 & 1) != 0`. -/
def PatternFlags.isStartUnanchored (f : PatternFlags) : Bool :=
  (f.val &&& 1) != 0

/-- `PatternFlags::with_start_unanchored`: `self.0 | 1`. -/
def PatternFlags.withStartUnanchored (f : PatternFlags) : PatternFlags :=
  ⟨f.val ||| 1⟩

/-- `PatternFlags::is_end_anchored`: `(self.0 & 2) != 0`. -/
def PatternFlags.isEndAnchored (f : PatternFlags) : Bool :=
  (f.val &&& 2) != 0

/-- `PatternFlags::with_end_anchored`: `self.0 | 2`. -/
def PatternFlags.withEndAnchored (f : PatternFlags) : PatternFlags :=
  ⟨f.val ||| 2⟩

/-- `Pattern` (`pattern.rs`) with its pieces materialized as a list, the
sequence its `Pieces` iterator yields. -/
structure PatternL (α : Type) where
  flags : PatternFlags
  pieces : List (List α)
deriving DecidableEq

/-- `Pattern::first_match` (`pattern.rs`): run `suffix_matches_impl` when
start-unanchored and `matches_impl` otherwise, then
`rest.filter(|rest| !end_anchored || rest.is_empty())`. -/
def PatternL.first_match {α : Type} (pat : PatternL α) (m : MatcherL α) (h : List α) :
    Option (List α) :=
  let rest :=
    if pat.flags.isStartUnanchored then suffix_matches_impl m pat.pieces h
    else matches_impl m pat.pieces h
  match rest with
  | some r => if !pat.flags.isEndAnchored || r.isEmpty then some r else none
  | none => none

/-- Rust `<[T]>::split(|t| t == wildcard)`: the fragments between marker
occurrences, in order, including empty fragments.  An empty slice yields a
single empty fragment; every marker occurrence starts a new fragment. -/
def splitWild {α : Type} [DecidableEq α] (w : α) : List α → List (List α)
  | [] => [[]]
  | a :: rest =>
    if a = w then [] :: splitWild w rest
    else
      match splitWild w rest with
      | f :: fs => (a :: f) :: fs
      | [] => [[a]]

/-- `Pattern::parse` (`pattern.rs`), with the pieces collected into a plain
list (the identity `FromIterator`): set `start_unanchored` when
`pattern.first() == Some(wildcard)`, set `end_anchored` when
`pattern.last() != Some(wildcard)`, and split the template on the marker. -/
def parseL {α : Type} [DecidableEq α] (t : List α) (w : α) : PatternL α :=
  let f0 := PatternFlags.empty
  let f1 := if t.head? = some w then f0.withStartUnanchored else f0
  let f2 := if t.getLast? ≠ some w then f1.withEndAnchored else f1
  ⟨f2, splitWild w t⟩

/-! `slicepat/src/u8_buf.rs`.  The build targets a 64-bit platform:
`size_of::<usize>()` is 8 and `usize::to_ne_bytes`/`from_ne_bytes` use 8
bytes in native order, modelled little-endian. -/

/-- `size_of::<usize>()` on the 64-bit target. -/
def usizeWidth : Nat := 8

/-- `usize::to_ne_bytes` generalized to any width: `k` bytes of `n`,
least significant first (the value stored is `n % 256^k`). -/
def toNeBytes : Nat → Nat → List Nat
  | 0, _ => []
  | k + 1, n => (n % 256) :: toNeBytes k (n / 256)

/-- `usize::from_ne_bytes`: recombine little-endian bytes. -/
def fromNeBytes : List Nat → Nat
  | [] => 0
  | b :: rest => b + 256 * fromNeBytes rest

/-- `U8Pieces::push` (`u8_buf.rs`): append the 8-byte native-endian length
prefix followed by the raw bytes, unless the piece is empty, in which case
append nothing.  (`reserve` only affects capacity, not contents.) -/
def U8Pieces.push (buf : List Nat) (piece : List Nat) : List Nat :=
  if 0 < piece.length then buf ++ toNeBytes usizeWidth piece.length ++ piece else buf

/-- `FromIterator<&[u8]> for U8Pieces` (`u8_buf.rs`): start from the empty
buffer and `push` each piece in order.  (`From<T: AsRef<[&[u8]]>>` differs
only in pre-reserved capacity.) -/
def U8Pieces.fromPieces (pieces : List (List Nat)) : List Nat :=
  pieces.foldl U8Pieces.push []

/-- One step of `U8PiecesIter::next` (`u8_buf.rs`): split off the 8-byte
length prefix (`split_at_checked(size_of::<usize>())`), decode it (the
`try_into` to `[u8; 8]` always succeeds on the exactly-8-byte prefix), and
split off that many bytes as the piece; `none` when either split fails.
Returns the piece together with the iterator's remaining buffer. -/
def u8PiecesNext (buf : List Nat) : Option (List Nat × List Nat) :=
  match splitAtChecked usizeWidth buf with
  | none => none
  | some (lenBytes, afterLen) =>
    match splitAtChecked (fromNeBytes lenBytes) afterLen with
    | none => none
    | some (piece, rest) => some (piece, rest)

/-- Driving `U8PiecesIter` to exhaustion, with explicit fuel to keep the
recursion structural.  Each successful step strictly shrinks the buffer
(`u8PiecesNext_rest_lt`), so `buf.length` units of fuel always suffice. -/
def decodePiecesGo : Nat → List Nat → List (List Nat)
  | 0, _ => []
  | fuel + 1, buf =>
    match u8PiecesNext buf with
    | none => []
    | some (piece, rest) => piece :: decodePiecesGo fuel rest

/-- The full list of pieces `U8PiecesIter` yields from a buffer. -/
def decodePieces (buf : List Nat) : List (List Nat) :=
  decodePiecesGo buf.length buf

/-- `Pattern::parse` at the instantiation the `bubz2` binary uses
(`type Pattern = slicepat::Pattern<U8Pieces, u8>` in `src/main.rs`): the
flags are computed as in `parseL` and the split fragments are collected
through `U8Pieces`'s `FromIterator`, i.e. pushed into the packed buffer in
order. -/
def parseU8 (t : List Nat) (w : Nat) : PatternFlags × List Nat :=
  ((parseL t w).flags, U8Pieces.fromPieces (splitWild w t))

/-- Convenience: the byte sequence of an ASCII string literal. -/
def strBytes (s : String) : List Nat := s.data.map Char.toNat

/-- Specification predicate: the pieces occur in `h` in order through
matcher-accepted windows that do not overlap, and `rest` is what remains of
`h` after the final window.  Empty pieces consume nothing, as in the scan. -/
def OccursChain {α : Type} (m : MatcherL α) : List (List α) → List α → List α → Prop
  | [], h, rest => rest = h
  | p :: ps, h, rest =>
    if p.isEmpty then OccursChain m ps h rest
    else ∃ i, i + p.length ≤ h.length ∧ m.isEqual p (window h i p.length) = true ∧
      OccursChain m ps (h.drop (i + p.length)) rest

/-- Specification predicate: as `OccursChain`, but the first piece's window
starts at offset 0 (the anchored-prefix case). -/
def OccursChainAnchored {α : Type} (m : MatcherL α) : List (List α) → List α → List α → Prop
  | [], h, rest => rest = h
  | p :: ps, h, rest =>
    p.length ≤ h.length ∧ m.isEqual p (h.take p.length) = true ∧
      OccursChain m ps (h.drop p.length) rest

end Slicepat

namespace Bubz2

open Slicepat

/-- `Directive` (`src/main.rs`). -/
inductive Directive where
  | Include
  | Exclude
deriving DecidableEq, Repr

/-- The loop body of `PatternMap::has_match` (`src/main.rs`), with the map's
entries in some iteration order and `one_matched` as the accumulator: an
`Include` entry whose pattern matches sets `one_matched`; an `Exclude`
entry whose pattern matches returns `false` immediately. -/
def has_match_go (hay : List Nat) :
    List (PatternL Nat × Directive) → Bool → Bool
  | [], one_matched => one_matched
  | (pat, dir) :: rest, one_matched =>
    if (pat.first_match PathMatch hay).isSome then
      match dir with
      | Directive.Include => has_match_go hay rest true
      | Directive.Exclude => false
    else has_match_go hay rest one_matched

/-- `PatternMap::has_match` (`src/main.rs`) over a table given as an
association list (the `FxHashMap` iterated in an arbitrary order; the list
may be taken in any order). -/
def has_match (table : List (PatternL Nat × Directive)) (hay : List Nat) : Bool :=
  has_match_go hay table false

end Bubz2

namespace Slicepat

/-! Sanity checks reproducing the unit tests of the Rust sources. -/

example : matches_impl ExactMatch [] (strBytes "oneshor") = none := by decide

example : suffix_matches_impl ExactMatch [] (strBytes "oneshor") = some (strBytes "oneshor") := by
  decide

example : matches_impl ExactMatch [strBytes "one"] (strBytes "oneshor ") = some (strBytes "shor ") := by
  decide

example : matches_impl ExactMatch [strBytes "no", strBytes "ze"] (strBytes "noize") = some [] := by
  decide

example : matches_impl ExactMatch [strBytes "no", strBytes "ze"] (strBytes " noize") = none := by
  decide

example : matches_impl ExactMatch [strBytes "no", strBytes "ze"] (strBytes "noize ") = some (strBytes " ") := by
  decide

example : matches_impl CaseInsensitive [strBytes "NOIZE"] (strBytes "Noize ") = some (strBytes " ") := by
  decide

example : matches_impl PathMatch [strBytes "maps/", strBytes ".nav"] (strBytes "maps/") = none := by
  decide

example : matches_impl PathMatch [strBytes "maps/", strBytes ".nav"] (strBytes "Maps/DM_FLOOD.NAV") = some [] := by
  decide

example : matches_impl PathMatch [strBytes "maps/", strBytes ".nav"] (strBytes "maps/cp_dustbowl.bsp") = none := by
  decide

example : parseL (strBytes "a*b") 42 = ⟨⟨2⟩, [strBytes "a", strBytes "b"]⟩ := by decide

example : parseL (strBytes "*a*b") 42 = ⟨⟨3⟩, [[], strBytes "a", strBytes "b"]⟩ := by decide

example : (parseL (strBytes "*.nav") 42).first_match PathMatch (strBytes "DM_FLOOD.NAV") = some [] := by
  decide

example : (parseL (strBytes "*.nav") 42).first_match PathMatch (strBytes "dm_flood.nav\t") = none := by
  decide

example : (parseL (strBytes "*.nav*") 42).first_match PathMatch (strBytes "cp_dustbowl.nav  ") = some (strBytes "  ") := by
  decide

example : decodePieces (U8Pieces.fromPieces [strBytes "one", strBytes "tour"]) = [strBytes "one", strBytes "tour"] := by
  decide

/-! Characterization of `windowPos` as the least matching offset. -/

theorem scanWindows_eq_some {α : Type} {m : MatcherL α} {piece h : List α} :
    ∀ {count i j : Nat}, scanWindows m piece h count i = some j →
      i ≤ j ∧ j < i + count ∧ m.isEqual piece (window h j piece.length) = true ∧
        ∀ k, i ≤ k → k < j → m.isEqual piece (window h k piece.length) = false := by
  intro count
  induction count with
  | zero => intro i j hscan; exact absurd hscan (by simp [scanWindows])
  | succ c ih =>
    intro i j hscan
    unfold scanWindows at hscan
    by_cases hm : m.isEqual piece (window h i piece.length) = true
    · rw [if_pos hm] at hscan
      obtain rfl : i = j := Option.some.inj hscan
      exact ⟨Nat.le_refl _, by omega, hm, fun k hik hki => absurd hik (by omega)⟩
    · rw [if_neg hm] at hscan
      rw [Bool.not_eq_true] at hm
      obtain ⟨h1, h2, h3, h4⟩ := ih hscan
      refine ⟨by omega, by omega, h3, fun k hik hkj => ?_⟩
      rcases Nat.eq_or_lt_of_le hik with rfl | hlt
      · exact hm
      · exact h4 k hlt hkj

theorem scanWindows_eq_none {α : Type} {m : MatcherL α} {piece h : List α} :
    ∀ {count i : Nat}, scanWindows m piece h count i = none →
      ∀ k, i ≤ k → k < i + count → m.isEqual piece (window h k piece.length) = false := by
  intro count
  induction count with
  | zero => intro i _ k hik hki; omega
  | succ c ih =>
    intro i hscan k hik hki
    unfold scanWindows at hscan
    by_cases hm : m.isEqual piece (window h i piece.length) = true
    · rw [if_pos hm] at hscan; exact absurd hscan (by simp)
    · rw [if_neg hm] at hscan
      rw [Bool.not_eq_true] at hm
      rcases Nat.eq_or_lt_of_le hik with rfl | hlt
      · exact hm
      · exact ih hscan k hlt (by omega)

/-- If `windowPos` returns offset `j`, its window fits in the haystack, the
matcher accepts it, and the matcher rejects every lower-offset window. -/
theorem windowPos_eq_some {α : Type} {m : MatcherL α} {piece h : List α} {j : Nat}
    (hw : windowPos m piece h = some j) :
    j + piece.length ≤ h.length ∧ m.isEqual piece (window h j piece.length) = true ∧
      ∀ k, k < j → m.isEqual piece (window h k piece.length) = false := by
  unfold windowPos at hw
  by_cases hlen : piece.length ≤ h.length
  · rw [if_pos hlen] at hw
    obtain ⟨-, h2, h3, h4⟩ := scanWindows_eq_some hw
    exact ⟨by omega, h3, fun k hk => h4 k (Nat.zero_le _) hk⟩
  · rw [if_neg hlen] at hw; exact absurd hw (by simp)

/-- If `windowPos` finds nothing, no window fitting in the haystack matches. -/
theorem windowPos_eq_none {α : Type} {m : MatcherL α} {piece h : List α}
    (hw : windowPos m piece h = none) :
    ∀ k, k + piece.length ≤ h.length → m.isEqual piece (window h k piece.length) = false := by
  intro k hk
  unfold windowPos at hw
  by_cases hlen : piece.length ≤ h.length
  · rw [if_pos hlen] at hw
    exact scanWindows_eq_none hw k (Nat.zero_le _) (by omega)
  · omega

/-- Conversely, the least matching offset is what `windowPos` returns. -/
theorem windowPos_eq_some_of {α : Type} {m : MatcherL α} {piece h : List α} {i : Nat}
    (hle : i + piece.length ≤ h.length)
    (hm : m.isEqual piece (window h i piece.length) = true)
    (hmin : ∀ k, k < i → m.isEqual piece (window h k piece.length) = false) :
    windowPos m piece h = some i := by
  cases hw : windowPos m piece h with
  | none => exact absurd hm (by simp [windowPos_eq_none hw i hle])
  | some j =>
    obtain ⟨hj1, hj2, hj3⟩ := windowPos_eq_some hw
    rcases Nat.lt_trichotomy i j with hlt | rfl | hgt
    · exact absurd hm (by simp [hj3 i hlt])
    · rfl
    · exact absurd hj2 (by simp [hmin j hgt])

/-! Basic facts about the packed-buffer encoder and decoder. -/

theorem u8PiecesNext_rest_lt {buf piece rest : List Nat}
    (h : u8PiecesNext buf = some (piece, rest)) : rest.length < buf.length := by
  unfold u8PiecesNext splitAtChecked usizeWidth at h
  split at h
  · exact absurd h (by simp)
  next lenBytes afterLen heq =>
    split at h
    · exact absurd h (by simp)
    next piece' rest' heq2 =>
      simp only [Option.some.injEq, Prod.mk.injEq] at h
      split at heq
      · simp only [Option.some.injEq, Prod.mk.injEq] at heq
        split at heq2
        · simp only [Option.some.injEq, Prod.mk.injEq] at heq2
          have h1 : afterLen.length = buf.length - 8 := by
            rw [← heq.2]; simp
          have h2 : rest.length ≤ afterLen.length := by
            rw [← h.2, ← heq2.2]; simp
          next h8 _ => omega
        · exact absurd heq2 (by simp)
      · exact absurd heq (by simp)

theorem u8PiecesNext_nil : u8PiecesNext [] = none := by decide

theorem decodePiecesGo_fuel {buf : List Nat} {fuel fuel' : Nat}
    (h : buf.length ≤ fuel) (h' : buf.length ≤ fuel') :
    decodePiecesGo fuel buf = decodePiecesGo fuel' buf := by
  induction fuel generalizing buf fuel' with
  | zero =>
    have hb : buf = [] := List.length_eq_zero.mp (Nat.le_zero.mp h)
    subst hb
    cases fuel' with
    | zero => rfl
    | succ k => simp [decodePiecesGo, u8PiecesNext_nil]
  | succ fuel ih =>
    cases fuel' with
    | zero =>
      have hb : buf = [] := List.length_eq_zero.mp (Nat.le_zero.mp h')
      subst hb
      simp [decodePiecesGo, u8PiecesNext_nil]
    | succ k =>
      cases hnext : u8PiecesNext buf with
      | none => simp [decodePiecesGo, hnext]
      | some pr =>
        obtain ⟨piece, rest⟩ := pr
        have hlt := u8PiecesNext_rest_lt hnext
        simp only [decodePiecesGo, hnext]
        exact congrArg _ (ih (by omega) (by omega))

/-- Unfolding `decodePieces` one iterator step at a time. -/
theorem decodePieces_cons {buf piece rest : List Nat}
    (hnext : u8PiecesNext buf = some (piece, rest)) :
    decodePieces buf = piece :: decodePieces rest := by
  have hlt := u8PiecesNext_rest_lt hnext
  unfold decodePieces
  cases hbl : buf.length with
  | zero =>
    have : buf = [] := List.length_eq_zero.mp hbl
    subst this
    rw [u8PiecesNext_nil] at hnext
    exact absurd hnext (by simp)
  | succ k =>
    simp only [decodePiecesGo, hnext]
    exact congrArg _ (decodePiecesGo_fuel (by omega) (by omega))

theorem decodePieces_none {buf : List Nat} (hnext : u8PiecesNext buf = none) :
    decodePieces buf = [] := by
  unfold decodePieces
  cases hbl : buf.length with
  | zero => rfl
  | succ k => simp [decodePiecesGo, hnext]

/-- C8: `parse` sets `start_unanchored` iff the template's first element
equals the wildcard marker, sets `end_anchored` iff the template's last
element does not equal the marker, and in particular an empty template
parses as end-anchored and not start-unanchored. -/
theorem C8_parse_flags {α : Type} [DecidableEq α] (t : List α) (w : α) :
    ((parseL t w).flags.isStartUnanchored = true ↔ t.head? = some w) ∧
    ((parseL t w).flags.isEndAnchored = true ↔ t.getLast? ≠ some w) ∧
    (parseL ([] : List α) w).flags.isEndAnchored = true ∧
    (parseL ([] : List α) w).flags.isStartUnanchored = false := by
  refine ⟨?_, ?_, ?_, ?_⟩
  · unfold parseL PatternFlags.empty PatternFlags.withStartUnanchored
      PatternFlags.withEndAnchored PatternFlags.isStartUnanchored
    by_cases h1 : t.head? = some w <;> by_cases h2 : t.getLast? ≠ some w <;>
      simp [h1, h2]
  · unfold parseL PatternFlags.empty PatternFlags.withStartUnanchored
      PatternFlags.withEndAnchored PatternFlags.isEndAnchored
    by_cases h1 : t.head? = some w <;> by_cases h2 : t.getLast? ≠ some w <;>
      simp [h1, h2]
  · simp [parseL, PatternFlags.empty, PatternFlags.withEndAnchored, PatternFlags.isEndAnchored]
  · simp [parseL, PatternFlags.empty, PatternFlags.withEndAnchored, PatternFlags.isStartUnanchored]

/-- C2: `first_match` applies the leftmost-piece-scan (`suffix_matches_impl`)
to the full pieces and haystack when start-unanchored and the
anchored-prefix procedure (`matches_impl`) otherwise, and gates a produced
remainder on emptiness exactly when the pattern is end-anchored. -/
theorem C2_first_match_composition {α : Type} (pat : PatternL α) (m : MatcherL α)
    (h : List α) :
    pat.first_match m h =
      match (if pat.flags.isStartUnanchored then suffix_matches_impl m pat.pieces h
             else matches_impl m pat.pieces h) with
      | none => none
      | some remaining =>
        if pat.flags.isEndAnchored then (if remaining.isEmpty then some remaining else none)
        else some remaining := by
  simp only [PatternL.first_match]
  cases hr : (if pat.flags.isStartUnanchored then suffix_matches_impl m pat.pieces h
              else matches_impl m pat.pieces h) with
  | none => simp
  | some r =>
    by_cases he : pat.flags.isEndAnchored <;> by_cases hre : r.isEmpty <;>
      simp [he, hre]

/-- C3: the anchored-prefix match with no pieces succeeds, returning the
haystack unchanged, exactly when the haystack is empty; with a first piece
`p0` it fails when the haystack is shorter than `p0` or when the length-`p0`
prefix window is not equivalent to `p0`, and otherwise continues as the
leftmost-piece-scan on the remaining pieces and haystack. -/
theorem C3_matches_impl_characterization {α : Type} (m : MatcherL α) (h p0 : List α)
    (ps : List (List α)) :
    (matches_impl m [] h = if h.isEmpty then some h else none) ∧
    (h.length < p0.length → matches_impl m (p0 :: ps) h = none) ∧
    (p0.length ≤ h.length → m.isEqual p0 (h.take p0.length) = false →
      matches_impl m (p0 :: ps) h = none) ∧
    (p0.length ≤ h.length → m.isEqual p0 (h.take p0.length) = true →
      matches_impl m (p0 :: ps) h = suffix_matches_impl m ps (h.drop p0.length)) := by
  refine ⟨?_, ?_, ?_, ?_⟩
  · by_cases hh : h.isEmpty <;> simp [matches_impl, hh]
  · intro hlt
    simp [matches_impl, splitAtChecked, Nat.not_le.mpr hlt]
  · intro hle hne
    simp [matches_impl, splitAtChecked, hle, hne]
  · intro hle heq
    simp [matches_impl, splitAtChecked, hle, heq]

/-- Witness for C3 at concrete inputs: haystack `[5]` is shorter than piece
`[5, 6]`, so the anchored-prefix match fails. -/
theorem C3_witness :
    matches_impl ExactMatch [[5, 6]] [5] = none :=
  (C3_matches_impl_characterization ExactMatch [5] [5, 6] []).2.1 (by decide)

/-- C4: the leftmost-piece-scan processes pieces in order: a non-empty piece
selects the lowest-offset window of its own length that the strategy
accepts, the whole evaluation fails when no window matches, and on success
the haystack advances to just past the selected window; an empty piece
sequence succeeds with the haystack unchanged. -/
theorem C4_suffix_scan_characterization {α : Type} (m : MatcherL α) (h p : List α)
    (ps : List (List α)) (hp : p ≠ []) :
    (suffix_matches_impl m [] h = some h) ∧
    ((∀ i, i + p.length ≤ h.length → m.isEqual p (window h i p.length) = false) →
      suffix_matches_impl m (p :: ps) h = none) ∧
    (∀ i, i + p.length ≤ h.length → m.isEqual p (window h i p.length) = true →
      (∀ j, j < i → m.isEqual p (window h j p.length) = false) →
      suffix_matches_impl m (p :: ps) h = suffix_matches_impl m ps (h.drop (i + p.length))) := by
  have hplen : 0 < p.length := List.length_pos.mpr hp
  refine ⟨rfl, ?_, ?_⟩
  · intro hall
    cases hw : windowPos m p h with
    | none => simp [suffix_matches_impl, hplen, hw]
    | some j =>
      obtain ⟨hj1, hj2, -⟩ := windowPos_eq_some hw
      exact absurd hj2 (by simp [hall j hj1])
  · intro i hle heq hmin
    have hw : windowPos m p h = some i := windowPos_eq_some_of hle heq hmin
    simp [suffix_matches_impl, hplen, hw, hle]

/-- Witness for C4 at concrete inputs: piece `[1]` in haystack `[2, 1]`
matches at offset 1 and the scan advances past it. -/
theorem C4_witness :
    suffix_matches_impl ExactMatch [[1]] [2, 1] =
      suffix_matches_impl ExactMatch [] (([2, 1] : List Nat).drop 2) :=
  (C4_suffix_scan_characterization ExactMatch [2, 1] [1] [] (by decide)).2.2 1 (by decide)
    (by decide) (by decide)

/-! Round trip of the packed-piece encoding. -/

theorem toNeBytes_length (k n : Nat) : (toNeBytes k n).length = k := by
  induction k generalizing n with
  | zero => rfl
  | succ k ih => simp [toNeBytes, ih]

theorem fromNeBytes_toNeBytes (k n : Nat) : fromNeBytes (toNeBytes k n) = n % 256 ^ k := by
  induction k generalizing n with
  | zero => simp [toNeBytes, fromNeBytes, Nat.mod_one]
  | succ k ih =>
    simp only [toNeBytes, fromNeBytes, ih]
    rw [pow_succ, mul_comm (256 ^ k) 256, Nat.mod_mul]

theorem push_eq_append (b p : List Nat) :
    U8Pieces.push b p = b ++ U8Pieces.push [] p := by
  unfold U8Pieces.push
  by_cases hp : 0 < p.length <;> simp [hp]

theorem foldl_push_eq (ps : List (List Nat)) (b : List Nat) :
    ps.foldl U8Pieces.push b = b ++ U8Pieces.fromPieces ps := by
  induction ps generalizing b with
  | nil => simp [U8Pieces.fromPieces]
  | cons p ps ih =>
    simp only [List.foldl_cons, U8Pieces.fromPieces]
    rw [ih (U8Pieces.push b p), push_eq_append b p, List.append_assoc]
    rw [ih (U8Pieces.push [] p)]

/-- Decoding one encoded non-empty piece off the front of a buffer. -/
theorem u8PiecesNext_encoded (p rest : List Nat) (hlen : p.length < 2 ^ 64) :
    u8PiecesNext (toNeBytes usizeWidth p.length ++ (p ++ rest)) = some (p, rest) := by
  have hpre : (toNeBytes usizeWidth p.length).length = usizeWidth := toNeBytes_length _ _
  have htake : (toNeBytes usizeWidth p.length ++ (p ++ rest)).take usizeWidth
      = toNeBytes usizeWidth p.length := List.take_left' hpre
  have hdrop : (toNeBytes usizeWidth p.length ++ (p ++ rest)).drop usizeWidth = p ++ rest :=
    List.drop_left' hpre
  have hlelen : usizeWidth ≤ (toNeBytes usizeWidth p.length ++ (p ++ rest)).length := by
    rw [List.length_append, hpre]; omega
  have hfrom : fromNeBytes (toNeBytes usizeWidth p.length) = p.length := by
    rw [fromNeBytes_toNeBytes]
    exact Nat.mod_eq_of_lt (by simpa [usizeWidth, show (256 : Nat) ^ 8 = 2 ^ 64 by norm_num]
      using hlen)
  have hsplit1 : splitAtChecked usizeWidth (toNeBytes usizeWidth p.length ++ (p ++ rest))
      = some (toNeBytes usizeWidth p.length, p ++ rest) := by
    unfold splitAtChecked
    rw [if_pos hlelen, htake, hdrop]
  have hsplit2 : splitAtChecked (fromNeBytes (toNeBytes usizeWidth p.length)) (p ++ rest)
      = some (p, rest) := by
    unfold splitAtChecked
    rw [hfrom, if_pos (by simp : p.length ≤ (p ++ rest).length)]
    rw [List.take_left, List.drop_left]
  unfold u8PiecesNext
  simp only [hsplit1, hsplit2]

/-- Core round trip: decoding an encoded piece sequence yields exactly its
non-empty pieces in order. -/
theorem decode_fromPieces (ps : List (List Nat)) (hlen : ∀ p ∈ ps, p.length < 2 ^ 64) :
    decodePieces (U8Pieces.fromPieces ps) = ps.filter (fun p => !p.isEmpty) := by
  induction ps with
  | nil => simp [U8Pieces.fromPieces, decodePieces, decodePiecesGo]
  | cons p ps ih =>
    have hps : ∀ q ∈ ps, q.length < 2 ^ 64 := fun q hq => hlen q (List.mem_cons_of_mem _ hq)
    have hfrom : U8Pieces.fromPieces (p :: ps) = U8Pieces.push [] p ++ U8Pieces.fromPieces ps := by
      rw [show U8Pieces.fromPieces (p :: ps) = ps.foldl U8Pieces.push (U8Pieces.push [] p)
        from rfl]
      exact foldl_push_eq ps (U8Pieces.push [] p)
    by_cases hp : p = []
    · subst hp
      have hpe : U8Pieces.push [] ([] : List Nat) = [] := by simp [U8Pieces.push]
      rw [hfrom, hpe, List.nil_append, ih hps]
      simp [List.filter_cons]
    · have hplen : 0 < p.length := List.length_pos.mpr hp
      have hpush : U8Pieces.push [] p = toNeBytes usizeWidth p.length ++ p := by
        simp [U8Pieces.push, hplen]
      rw [hfrom, hpush, List.append_assoc]
      rw [decodePieces_cons (u8PiecesNext_encoded p _ (hlen p (List.mem_cons_self _ _)))]
      rw [ih hps]
      simp [List.filter_cons, hp]

/-- C9: encoding a finite piece sequence into the packed buffer and then
iterating the decoder yields exactly the non-empty pieces of the original
sequence, in the original order, with the same count. -/
theorem C9_packed_roundtrip (ps : List (List Nat)) (hlen : ∀ p ∈ ps, p.length < 2 ^ 64) :
    decodePieces (U8Pieces.fromPieces ps) = ps.filter (fun p => !p.isEmpty) ∧
    (decodePieces (U8Pieces.fromPieces ps)).length = (ps.filter (fun p => !p.isEmpty)).length :=
  ⟨decode_fromPieces ps hlen, by rw [decode_fromPieces ps hlen]⟩

/-- Witness for C9: a concrete sequence with an empty piece round-trips to
its non-empty pieces. -/
theorem C9_witness :
    decodePieces (U8Pieces.fromPieces [[1, 2], [], [3]]) = [[1, 2], [3]] := by
  rw [(C9_packed_roundtrip [[1, 2], [], [3]] (by decide)).1]
  decide

/-- Every fragment `slice::split` produces is no longer than the template. -/
theorem splitWild_length_le {α : Type} [DecidableEq α] {w : α} :
    ∀ {t f : List α}, f ∈ splitWild w t → f.length ≤ t.length := by
  intro t
  induction t with
  | nil =>
    intro f hf
    simp only [splitWild, List.mem_singleton] at hf
    simp [hf]
  | cons a rest ih =>
    intro f hf
    unfold splitWild at hf
    by_cases ha : a = w
    · rw [if_pos ha] at hf
      rcases List.mem_cons.mp hf with rfl | hmem
      · simp
      · exact Nat.le_trans (ih hmem) (by simp)
    · rw [if_neg ha] at hf
      cases hsplit : splitWild w rest with
      | nil =>
        rw [hsplit] at hf
        simp only [List.mem_singleton] at hf
        simp [hf]
      | cons g gs =>
        rw [hsplit] at hf
        rcases List.mem_cons.mp hf with rfl | hmem
        · have hg : g ∈ splitWild w rest := by
            rw [hsplit]; exact List.mem_cons_self _ _
          have := ih hg
          simp only [List.length_cons]
          omega
        · have hm : f ∈ splitWild w rest := by
            rw [hsplit]; exact List.mem_cons_of_mem _ hmem
          exact Nat.le_trans (ih hm) (by simp)

/-- C5: parsing a template into the packed `U8Pieces` store never
materializes an empty piece: the stored piece sequence is exactly the
non-empty fragments of splitting the template on the marker, in
left-to-right order, with empty fragments (leading, trailing, or doubled
wildcards) dropped rather than stored. -/
theorem C5_parse_no_empty_pieces (t : List Nat) (w : Nat) (hlen : t.length < 2 ^ 64) :
    decodePieces (parseU8 t w).2 = (splitWild w t).filter (fun f => !f.isEmpty) ∧
    ∀ q ∈ decodePieces (parseU8 t w).2, q ≠ [] := by
  have hfrag : ∀ f ∈ splitWild w t, f.length < 2 ^ 64 := fun f hf =>
    Nat.lt_of_le_of_lt (splitWild_length_le hf) hlen
  refine ⟨decode_fromPieces _ hfrag, ?_⟩
  rw [show (parseU8 t w).2 = U8Pieces.fromPieces (splitWild w t) from rfl]
  rw [decode_fromPieces _ hfrag]
  intro q hq
  have hmem := List.of_mem_filter hq
  simpa using hmem

/-- Witness for C5: template `*a**b*` over marker `*` (42) stores exactly
the pieces `a` and `b`. -/
theorem C5_witness :
    decodePieces (parseU8 [42, 97, 42, 42, 98, 42] 42).2 = [[97], [98]] := by
  rw [(C5_parse_no_empty_pieces [42, 97, 42, 42, 98, 42] 42 (by decide)).1]
  decide

/-- C10: one decoder step on an arbitrary byte buffer is total and safe:
it returns `none` whenever fewer bytes than the pointer-width length prefix
remain or the decoded length exceeds the remaining bytes, and any piece it
yields is a contiguous in-bounds slice of the buffer, with the leftover
buffer strictly shorter (so the iteration, `decodePieces`, a total
function, always terminates without out-of-bounds reads). -/
theorem C10_decoder_safety (buf : List Nat) :
    (buf.length < usizeWidth → u8PiecesNext buf = none) ∧
    (usizeWidth ≤ buf.length → buf.length - usizeWidth < fromNeBytes (buf.take usizeWidth) →
      u8PiecesNext buf = none) ∧
    (∀ p rest, u8PiecesNext buf = some (p, rest) →
      p = (buf.drop usizeWidth).take (fromNeBytes (buf.take usizeWidth)) ∧
      usizeWidth + p.length + rest.length = buf.length ∧
      rest = buf.drop (usizeWidth + p.length) ∧
      rest.length < buf.length) := by
  have hw : usizeWidth = 8 := rfl
  refine ⟨?_, ?_, ?_⟩
  · intro hlt
    have hn : ¬ (usizeWidth ≤ buf.length) := by omega
    simp [u8PiecesNext, splitAtChecked, hn]
  · intro h8 hbig
    have hdl : (buf.drop usizeWidth).length = buf.length - usizeWidth :=
      List.length_drop _ _
    have hn : ¬ (fromNeBytes (buf.take usizeWidth) ≤ (buf.drop usizeWidth).length) := by
      rw [hdl]; omega
    have hsplit1 : splitAtChecked usizeWidth buf
        = some (buf.take usizeWidth, buf.drop usizeWidth) := by
      unfold splitAtChecked; rw [if_pos h8]
    have hsplit2 : splitAtChecked (fromNeBytes (buf.take usizeWidth)) (buf.drop usizeWidth)
        = none := by
      unfold splitAtChecked; rw [if_neg hn]
    unfold u8PiecesNext
    simp only [hsplit1, hsplit2]
  · intro p rest hsome
    by_cases h8 : usizeWidth ≤ buf.length
    · by_cases hfit : fromNeBytes (buf.take usizeWidth) ≤ (buf.drop usizeWidth).length
      · have hsplit1 : splitAtChecked usizeWidth buf
            = some (buf.take usizeWidth, buf.drop usizeWidth) := by
          unfold splitAtChecked; rw [if_pos h8]
        have hsplit2 : splitAtChecked (fromNeBytes (buf.take usizeWidth)) (buf.drop usizeWidth)
            = some ((buf.drop usizeWidth).take (fromNeBytes (buf.take usizeWidth)),
                    (buf.drop usizeWidth).drop (fromNeBytes (buf.take usizeWidth))) := by
          unfold splitAtChecked; rw [if_pos hfit]
        unfold u8PiecesNext at hsome
        simp only [hsplit1, hsplit2, Option.some.injEq, Prod.mk.injEq] at hsome
        obtain ⟨hp, hrest⟩ := hsome
        have hdl : (buf.drop usizeWidth).length = buf.length - usizeWidth :=
          List.length_drop _ _
        have hplen : p.length = fromNeBytes (buf.take usizeWidth) := by
          rw [← hp, List.length_take]; omega
        have hrlen : rest.length = buf.length - usizeWidth - p.length := by
          rw [← hrest, List.length_drop, hdl, hplen]
        refine ⟨hp.symm, by omega, ?_, by omega⟩
        rw [← hrest, List.drop_drop, hplen]
      · have hsplit1 : splitAtChecked usizeWidth buf
            = some (buf.take usizeWidth, buf.drop usizeWidth) := by
          unfold splitAtChecked; rw [if_pos h8]
        have hsplit2 : splitAtChecked (fromNeBytes (buf.take usizeWidth)) (buf.drop usizeWidth)
            = none := by
          unfold splitAtChecked; rw [if_neg hfit]
        unfold u8PiecesNext at hsome
        simp only [hsplit1, hsplit2] at hsome
        exact Option.noConfusion hsome
    · have hsplit1 : splitAtChecked usizeWidth buf = none := by
        unfold splitAtChecked; rw [if_neg h8]
      unfold u8PiecesNext at hsome
      simp only [hsplit1] at hsome
      exact Option.noConfusion hsome

/-- Witness for C10: a three-byte buffer is shorter than the length prefix,
so the decoder yields nothing. -/
theorem C10_witness : u8PiecesNext [1, 2, 3] = none :=
  (C10_decoder_safety [1, 2, 3]).1 (by decide)

/-! Matching a wildcard-free template (claim C7). -/

/-- Splitting a template that does not contain the marker yields the whole
template as the single fragment. -/
theorem splitWild_not_mem {α : Type} [DecidableEq α] {w : α} :
    ∀ {t : List α}, w ∉ t → splitWild w t = [t] := by
  intro t
  induction t with
  | nil => intro _; rfl
  | cons a rest ih =>
    intro hmem
    have ha : ¬ a = w := fun heq => hmem (heq ▸ List.mem_cons_self a rest)
    have hrest : w ∉ rest := fun hr => hmem (List.mem_cons_of_mem a hr)
    unfold splitWild
    rw [if_neg ha, ih hrest]

/-- A wildcard-free template parses to the fully anchored single-piece
pattern. -/
theorem parseL_not_mem {α : Type} [DecidableEq α] {t : List α} {w : α} (hw : w ∉ t) :
    parseL t w = ⟨⟨2⟩, [t]⟩ := by
  have hhead : ¬ t.head? = some w := by
    intro hh
    cases t with
    | nil => exact Option.noConfusion hh
    | cons a rest =>
      exact hw (by simp only [List.head?_cons, Option.some.injEq] at hh; simp [hh])
  have hlast : t.getLast? ≠ some w := by
    intro hl
    obtain ⟨hne, heq⟩ := List.mem_getLast?_eq_getLast (Option.mem_def.mpr hl)
    exact hw (heq ▸ List.getLast_mem hne)
  simp only [parseL]
  rw [if_neg hhead, if_pos hlast, splitWild_not_mem hw]
  rfl

/-- For a wildcard-free template, `first_match` succeeds exactly when the
haystack has the template's length and the strategy equates the two. -/
theorem first_match_not_mem {t h : List Nat} {w : Nat} (hw : w ∉ t) (m : MatcherL Nat) :
    (((parseL t w).first_match m h).isSome = true) ↔
      (h.length = t.length ∧ m.isEqual t h = true) := by
  rw [parseL_not_mem hw]
  simp only [PatternL.first_match]
  have hstart : PatternFlags.isStartUnanchored ⟨2⟩ = false := rfl
  have hend : PatternFlags.isEndAnchored ⟨2⟩ = true := rfl
  rw [hstart]
  simp only [Bool.false_eq_true, if_false, hend, Bool.not_true, Bool.false_or]
  by_cases hle : t.length ≤ h.length
  · have hsp : splitAtChecked t.length h = some (h.take t.length, h.drop t.length) := by
      unfold splitAtChecked; rw [if_pos hle]
    simp only [matches_impl, hsp]
    by_cases heq : m.isEqual t (h.take t.length) = true
    · rw [if_pos heq]
      simp only [suffix_matches_impl]
      constructor
      · intro hsome
        have hempty : (h.drop t.length).isEmpty = true := by
          by_cases he : (h.drop t.length).isEmpty
          · exact he
          · simp [he] at hsome
        have hlen : h.length = t.length := by
          rw [List.isEmpty_iff, List.drop_eq_nil_iff] at hempty
          omega
        refine ⟨hlen, ?_⟩
        have : h.take t.length = h := by
          rw [← hlen]; exact List.take_length h
        rwa [this] at heq
      · rintro ⟨hlen, -⟩
        have hempty : (h.drop t.length).isEmpty = true := by
          rw [List.isEmpty_iff, List.drop_eq_nil_iff]; omega
        simp [hempty]
    · rw [if_neg heq]
      simp only [Option.isSome_none, Bool.false_eq_true, false_iff, not_and]
      intro hlen
      have : h.take t.length = h := by
        rw [← hlen]; exact List.take_length h
      rw [this] at heq
      intro hcontr
      exact heq hcontr
  · have hsp : splitAtChecked t.length h = none := by
      unfold splitAtChecked; rw [if_neg hle]
    simp only [matches_impl, hsp]
    simp only [Option.isSome_none, Bool.false_eq_true, false_iff, not_and]
    intro hlen
    omega

/-- Pointwise lifting: a length check plus `all` over the zip is the same
as the `Forall₂` pointwise relation. -/
theorem length_and_zipAll_iff (f : Nat × Nat → Bool) :
    ∀ (a b : List Nat),
      (((a.length == b.length) && (a.zip b).all f) = true) ↔
        List.Forall₂ (fun x y => f (x, y) = true) a b := by
  intro a
  induction a with
  | nil =>
    intro b
    cases b with
    | nil => simp
    | cons y ys => simp
  | cons x xs ih =>
    intro b
    cases b with
    | nil => simp
    | cons y ys =>
      have ih' : (xs.length = ys.length ∧ ((xs.zip ys).all f) = true) ↔
          List.Forall₂ (fun x y => f (x, y) = true) xs ys := by
        rw [← ih ys]
        simp [Bool.and_eq_true, beq_iff_eq]
      simp only [List.zip_cons_cons, List.all_cons, List.length_cons, Bool.and_eq_true,
        beq_iff_eq, List.forall₂_cons]
      constructor
      · rintro ⟨hlen, hf, hall⟩
        exact ⟨hf, ih'.mp ⟨by omega, hall⟩⟩
      · rintro ⟨hf, hforall⟩
        obtain ⟨hlen, hall⟩ := ih'.mpr hforall
        exact ⟨by omega, hf, hall⟩

/-- `CaseInsensitive` is the pointwise ASCII-case-insensitive relation. -/
theorem sliceEqIgnoreAsciiCase_iff (a b : List Nat) :
    sliceEqIgnoreAsciiCase a b = true ↔
      List.Forall₂ (fun x y => toAsciiLowercase x = toAsciiLowercase y) a b := by
  rw [show sliceEqIgnoreAsciiCase a b
      = ((a.length == b.length) && (a.zip b).all fun p => byteEqIgnoreAsciiCase p.1 p.2)
      from rfl]
  rw [length_and_zipAll_iff]
  constructor
  · exact fun hf => hf.imp fun _ _ hxy => by
      simpa [byteEqIgnoreAsciiCase, beq_iff_eq] using hxy
  · exact fun hf => hf.imp fun _ _ hxy => by
      simpa [byteEqIgnoreAsciiCase, beq_iff_eq] using hxy

/-- `PathMatch` in the length-plus-`all` shape. -/
theorem pathMatch_eq_all (a b : List Nat) :
    PathMatch.isEqual a b
      = ((a.length == b.length) && (a.zip b).all fun p =>
          byteEqIgnoreAsciiCase p.1 p.2 || (p.1 == 47 && p.2 == 92) || (p.1 == 92 && p.2 == 47)) := by
  show (if a.length ≠ b.length then false else _) = _
  by_cases hlen : a.length = b.length
  · rw [if_neg (by omega)]
    simp [beq_iff_eq, hlen]
  · rw [if_pos hlen]
    simp [beq_iff_eq, hlen]

/-- `PathMatch` is the pointwise case-insensitive-or-separator relation. -/
theorem pathMatch_iff (a b : List Nat) :
    PathMatch.isEqual a b = true ↔
      List.Forall₂ (fun x y => toAsciiLowercase x = toAsciiLowercase y ∨
        (x = 47 ∧ y = 92) ∨ (x = 92 ∧ y = 47)) a b := by
  rw [pathMatch_eq_all, length_and_zipAll_iff]
  constructor
  · exact fun hf => hf.imp fun x y hxy => by
      simpa [byteEqIgnoreAsciiCase, beq_iff_eq, Bool.or_eq_true, Bool.and_eq_true, or_assoc]
        using hxy
  · exact fun hf => hf.imp fun x y hxy => by
      simpa [byteEqIgnoreAsciiCase, beq_iff_eq, Bool.or_eq_true, Bool.and_eq_true, or_assoc]
        using hxy

/-- C7: for a wildcard-free template, `first_match` on the parsed pattern
succeeds iff the haystack is equivalent to the whole template under the
chosen strategy: exact equality for `ExactMatch`, pointwise ASCII
case-insensitive equality for `CaseInsensitive`, and for `PathMatch`
additionally allowing `/` (47) and `\` (92) to stand for each other at any
position where the bytes differ. -/
theorem C7_no_wildcard_template (t h : List Nat) (w : Nat) (hw : w ∉ t) :
    ((((parseL t w).first_match ExactMatch h).isSome = true) ↔ h = t) ∧
    ((((parseL t w).first_match CaseInsensitive h).isSome = true) ↔
      List.Forall₂ (fun x y => toAsciiLowercase x = toAsciiLowercase y) t h) ∧
    ((((parseL t w).first_match PathMatch h).isSome = true) ↔
      List.Forall₂ (fun x y => toAsciiLowercase x = toAsciiLowercase y ∨
        (x = 47 ∧ y = 92) ∨ (x = 92 ∧ y = 47)) t h) := by
  refine ⟨?_, ?_, ?_⟩
  · rw [first_match_not_mem hw ExactMatch]
    constructor
    · rintro ⟨-, heq⟩
      exact (of_decide_eq_true heq).symm
    · rintro rfl
      exact ⟨rfl, by simp [ExactMatch]⟩
  · rw [first_match_not_mem hw CaseInsensitive]
    rw [show CaseInsensitive.isEqual t h = sliceEqIgnoreAsciiCase t h from rfl]
    rw [sliceEqIgnoreAsciiCase_iff]
    constructor
    · rintro ⟨-, hf⟩; exact hf
    · intro hf
      exact ⟨(List.Forall₂.length_eq hf).symm, hf⟩
  · rw [first_match_not_mem hw PathMatch]
    rw [pathMatch_iff]
    constructor
    · rintro ⟨-, hf⟩; exact hf
    · intro hf
      exact ⟨(List.Forall₂.length_eq hf).symm, hf⟩

/-! Soundness of `first_match` (claim C6). -/

theorem suffix_matches_impl_occurs {α : Type} {m : MatcherL α} :
    ∀ {ps : List (List α)} {h rest : List α},
      suffix_matches_impl m ps h = some rest → OccursChain m ps h rest := by
  intro ps
  induction ps with
  | nil =>
    intro h rest hs
    exact (Option.some.inj hs).symm
  | cons p ps ih =>
    intro h rest hs
    unfold suffix_matches_impl at hs
    by_cases hp : 0 < p.length
    · rw [if_pos hp] at hs
      cases hw : windowPos m p h with
      | none =>
        simp only [hw] at hs
        exact Option.noConfusion hs
      | some off =>
        simp only [hw] at hs
        obtain ⟨hle, heq, -⟩ := windowPos_eq_some hw
        rw [if_pos hle] at hs
        have hempty : p.isEmpty = false := by
          cases p with
          | nil => exact absurd hp (by simp)
          | cons a l => rfl
        unfold OccursChain
        rw [if_neg (by simp [hempty])]
        exact ⟨off, hle, heq, ih hs⟩
    · rw [if_neg hp] at hs
      have hempty : p.isEmpty = true := by
        cases p with
        | nil => rfl
        | cons a l => exact absurd (by simp : 0 < (a :: l).length) hp
      unfold OccursChain
      rw [if_pos hempty]
      exact ih hs

theorem matches_impl_occurs {α : Type} {m : MatcherL α} {ps : List (List α)} {h rest : List α}
    (hs : matches_impl m ps h = some rest) : OccursChainAnchored m ps h rest := by
  cases ps with
  | nil =>
    simp only [matches_impl] at hs
    by_cases hh : h.isEmpty
    · rw [if_pos hh] at hs
      exact (Option.some.inj hs).symm
    · rw [if_neg hh] at hs
      exact Option.noConfusion hs
  | cons p ps =>
    unfold matches_impl at hs
    by_cases hle : p.length ≤ h.length
    · have hsp : splitAtChecked p.length h = some (h.take p.length, h.drop p.length) := by
        unfold splitAtChecked; rw [if_pos hle]
      simp only [hsp] at hs
      by_cases heq : m.isEqual p (h.take p.length) = true
      · rw [if_pos heq] at hs
        exact ⟨hle, heq, suffix_matches_impl_occurs hs⟩
      · rw [if_neg heq] at hs
        exact Option.noConfusion hs
    · have hsp : splitAtChecked p.length h = none := by
        unfold splitAtChecked; rw [if_neg hle]
      simp only [hsp] at hs
      exact Option.noConfusion hs

theorem suffix_matches_impl_isSuffix {α : Type} {m : MatcherL α} :
    ∀ {ps : List (List α)} {h rest : List α},
      suffix_matches_impl m ps h = some rest → ∃ k, k ≤ h.length ∧ rest = h.drop k := by
  intro ps
  induction ps with
  | nil =>
    intro h rest hs
    obtain rfl : h = rest := Option.some.inj hs
    exact ⟨0, Nat.zero_le _, by simp⟩
  | cons p ps ih =>
    intro h rest hs
    unfold suffix_matches_impl at hs
    by_cases hp : 0 < p.length
    · rw [if_pos hp] at hs
      cases hw : windowPos m p h with
      | none =>
        simp only [hw] at hs
        exact Option.noConfusion hs
      | some off =>
        simp only [hw] at hs
        obtain ⟨hle, -, -⟩ := windowPos_eq_some hw
        rw [if_pos hle] at hs
        obtain ⟨k, hk, hrest⟩ := ih hs
        refine ⟨k + (off + p.length), ?_, ?_⟩
        · have := List.length_drop (off + p.length) h
          omega
        · rw [hrest, List.drop_drop]
          congr 1
          omega
    · rw [if_neg hp] at hs
      exact ih hs

theorem matches_impl_isSuffix {α : Type} {m : MatcherL α} {ps : List (List α)} {h rest : List α}
    (hs : matches_impl m ps h = some rest) : ∃ k, k ≤ h.length ∧ rest = h.drop k := by
  cases ps with
  | nil =>
    simp only [matches_impl] at hs
    by_cases hh : h.isEmpty
    · rw [if_pos hh] at hs
      obtain rfl : h = rest := Option.some.inj hs
      exact ⟨0, Nat.zero_le _, by simp⟩
    · rw [if_neg hh] at hs
      exact Option.noConfusion hs
  | cons p ps =>
    unfold matches_impl at hs
    by_cases hle : p.length ≤ h.length
    · have hsp : splitAtChecked p.length h = some (h.take p.length, h.drop p.length) := by
        unfold splitAtChecked; rw [if_pos hle]
      simp only [hsp] at hs
      by_cases heq : m.isEqual p (h.take p.length) = true
      · rw [if_pos heq] at hs
        obtain ⟨k, hk, hrest⟩ := suffix_matches_impl_isSuffix hs
        refine ⟨k + p.length, ?_, ?_⟩
        · have := List.length_drop p.length h
          omega
        · rw [hrest, List.drop_drop]
          congr 1
          omega
      · rw [if_neg heq] at hs
        exact Option.noConfusion hs
    · have hsp : splitAtChecked p.length h = none := by
        unfold splitAtChecked; rw [if_neg hle]
      simp only [hsp] at hs
      exact Option.noConfusion hs

/-- C6: soundness of `first_match`: a returned remainder is a contiguous
suffix of the haystack; the literal pieces match strategy-accepted windows
of the haystack occurring in piece order without overlap, with the first
window at offset 0 when the pattern is not start-unanchored; and the
remainder is empty when the pattern is end-anchored. -/
theorem C6_first_match_sound {α : Type} (pat : PatternL α) (m : MatcherL α)
    (h rest : List α) (hs : pat.first_match m h = some rest) :
    (∃ k, k ≤ h.length ∧ rest = h.drop k) ∧
    (pat.flags.isEndAnchored = true → rest = []) ∧
    (pat.flags.isStartUnanchored = true → OccursChain m pat.pieces h rest) ∧
    (pat.flags.isStartUnanchored = false → OccursChainAnchored m pat.pieces h rest) := by
  simp only [PatternL.first_match] at hs
  cases hrun : (if pat.flags.isStartUnanchored then suffix_matches_impl m pat.pieces h
               else matches_impl m pat.pieces h) with
  | none =>
    simp only [hrun] at hs
    exact Option.noConfusion hs
  | some r =>
    simp only [hrun] at hs
    by_cases hcond : (!pat.flags.isEndAnchored || r.isEmpty) = true
    · rw [if_pos hcond] at hs
      obtain rfl : r = rest := Option.some.inj hs
      have hend : pat.flags.isEndAnchored = true → r = [] := by
        intro he
        rw [he] at hcond
        simp only [Bool.not_true, Bool.false_or] at hcond
        exact List.isEmpty_iff.mp hcond
      by_cases hstart : pat.flags.isStartUnanchored = true
      · rw [if_pos hstart] at hrun
        exact ⟨suffix_matches_impl_isSuffix hrun, hend,
          fun _ => suffix_matches_impl_occurs hrun,
          fun hfalse => absurd hstart (by simp [hfalse])⟩
      · rw [if_neg hstart] at hrun
        exact ⟨matches_impl_isSuffix hrun, hend,
          fun htrue => absurd htrue hstart,
          fun _ => matches_impl_occurs hrun⟩
    · rw [if_neg hcond] at hs
      exact Option.noConfusion hs

/-- Witness for C6: the fully anchored pattern `a*b` matches `axb` with
empty remainder, and all soundness conclusions hold there. -/
theorem C6_witness :
    (∃ k, k ≤ (strBytes "axb").length ∧ ([] : List Nat) = (strBytes "axb").drop k) ∧
    ((parseL (strBytes "a*b") 42).flags.isEndAnchored = true → ([] : List Nat) = []) ∧
    ((parseL (strBytes "a*b") 42).flags.isStartUnanchored = true →
      OccursChain PathMatch (parseL (strBytes "a*b") 42).pieces (strBytes "axb") []) ∧
    ((parseL (strBytes "a*b") 42).flags.isStartUnanchored = false →
      OccursChainAnchored PathMatch (parseL (strBytes "a*b") 42).pieces (strBytes "axb") []) :=
  C6_first_match_sound (parseL (strBytes "a*b") 42) PathMatch (strBytes "axb") [] (by decide)

/-- Witness for C7: the wildcard-free template `nav` matched against
haystacks under all three strategies. -/
theorem C7_witness :
    (((parseL (strBytes "nav") 42).first_match ExactMatch (strBytes "nav")).isSome = true)
      ∧ List.Forall₂ (fun x y => toAsciiLowercase x = toAsciiLowercase y)
          (strBytes "nav") (strBytes "NAV") := by
  constructor
  · exact ((C7_no_wildcard_template (strBytes "nav") (strBytes "nav") 42 (by decide)).1).mpr rfl
  · exact ((C7_no_wildcard_template (strBytes "nav") (strBytes "NAV") 42 (by decide)).2.1).mp
      (by decide)

end Slicepat

namespace Bubz2

open Slicepat

/-- An `Exclude` entry whose pattern matches the haystack forces the
`has_match` loop to `false`, whatever the accumulator and wherever the
entry sits in the iteration order. -/
theorem has_match_go_exclude (hay : List Nat) :
    ∀ (l : List (PatternL Nat × Directive)) (b : Bool),
      (∃ pd ∈ l, pd.2 = Directive.Exclude ∧ (pd.1.first_match PathMatch hay).isSome = true) →
      has_match_go hay l b = false := by
  intro l
  induction l with
  | nil =>
    rintro b ⟨pd, hmem, -⟩
    exact absurd hmem (by simp)
  | cons e rest ih =>
    rintro b ⟨pd, hmem, hdir, hmatch⟩
    obtain ⟨pat, dir⟩ := e
    simp only [has_match_go]
    rcases List.mem_cons.mp hmem with heq | hmem'
    · subst heq
      cases dir with
      | Include => exact absurd hdir (by simp)
      | Exclude =>
        rw [if_pos hmatch]
    · by_cases hm : (pat.first_match PathMatch hay).isSome = true
      · rw [if_pos hm]
        cases dir with
        | Include => exact ih true ⟨pd, hmem', hdir, hmatch⟩
        | Exclude => rfl
      · rw [if_neg hm]
        exact ih b ⟨pd, hmem', hdir, hmatch⟩

/-- C1 (amended): if any pattern registered with an `Exclude` directive (a
`!` line) matches the haystack, `has_match` returns `false` — the walk in
`main` then does NOT skip the path, i.e. the path is force-included into
the compression pipeline — regardless of how many `Include` patterns also
match and regardless of the order the table is iterated in. -/
theorem C1_exclude_forces_inclusion (table : List (PatternL Nat × Directive)) (hay : List Nat)
    (hex : ∃ pd ∈ table, pd.2 = Directive.Exclude ∧
      (pd.1.first_match PathMatch hay).isSome = true) :
    has_match table hay = false :=
  has_match_go_exclude hay table false hex

/-- C1 counterexample: the pattern `*` registered with an `Exclude`
directive (a `!` line) matches the path `a` (byte 97), yet `has_match`
returns `false`, so the walk in `main` does not skip the path: the path is
NOT reported as excluded from the compression pipeline, contrary to the
claim. -/
theorem C1_counterexample :
    ((parseL [42] 42).first_match PathMatch [97]).isSome = true ∧
      has_match [(parseL [42] 42, Directive.Exclude)] [97] = false := by
  decide

/-- Witness for C1's amended statement: a table containing both a matching
`Include` pattern (`*a`) and a matching `Exclude` pattern (`*`) still
reports `false`. -/
theorem C1_witness :
    has_match [(parseL [42, 97] 42, Directive.Include), (parseL [42] 42, Directive.Exclude)]
      [98, 97] = false :=
  C1_exclude_forces_inclusion _ _
    ⟨(parseL [42] 42, Directive.Exclude), by decide, rfl, by decide⟩

end Bubz2
